import Mathlib

/-!
Verification development for the VoteEnsemble core (the MoVE and ROVE
selectors, the subsample orchestrator `_BaseVE`, the memoizing
`_CachedEvaluator`, and the result store glue).

The C++ sources are shallowly embedded: `double` becomes `ℚ`,
`Eigen::MatrixXd` becomes a list of rows, `std::vector<double>` (`Result`)
becomes `List ℚ`, fallible code returns `Except String _`, and the
`std::mt19937`-driven subsample draws become an explicit `draw` parameter.
-/

namespace VoteEnsemble

/-- A learner candidate: `using Result = std::vector<double>` (types.hpp). -/
abbrev Res := List ℚ

/-- A numeric matrix (`Eigen::MatrixXd`), embedded as a list of rows. -/
abbrev Mat := List (List ℚ)

/-- Column count of a matrix (`evalArray.cols()`); Eigen matrices are
rectangular, so the first row's length is the column count. -/
def numCols (m : Mat) : ℕ := (m.headD []).length

/-- `rowwise().minCoeff()` applied to one (nonempty) row. -/
def rowMin : List ℚ → ℚ
  | [] => 0
  | x :: xs => xs.foldl min x

/-- `rowwise().maxCoeff()` applied to one (nonempty) row. -/
def rowMax : List ℚ → ℚ
  | [] => 0
  | x :: xs => xs.foldl max x

namespace ROVE

/-- One row of `ROVE::_gapMatrix` (ROVE.cpp:142-165): in a minimization
problem `gap = value - rowMin`, in a maximization problem
`gap = rowMax - value`. -/
def gapRow (isMin : Bool) (r : List ℚ) : List ℚ :=
  if isMin then r.map (fun v => v - rowMin r)
  else r.map (fun v => rowMax r - v)

/-- `ROVE::_gapMatrix` (ROVE.cpp:142-165): throws on an empty matrix,
otherwise applies `gapRow` to every row. -/
def gapMatrix (isMin : Bool) (evalArray : Mat) : Except String Mat :=
  if evalArray.length = 0 ∨ numCols evalArray = 0 then
    .error "ROVE::_gapMatrix: evalArray cannot be empty"
  else
    .ok (evalArray.map (gapRow isMin))

/-- Core of `ROVE::_epsilonOptimalProb` (ROVE.cpp:168-180): per candidate
column, the column-wise mean of the boolean matrix `gap <= epsilon`,
i.e. the fraction of rows whose entry in that column is `<= epsilon`. -/
def epsilonOptimalProbFn (gapMat : Mat) (epsilon : ℚ) : List ℚ :=
  (List.range (numCols gapMat)).map fun j =>
    ((gapMat.countP fun r => decide (r.getD j 0 ≤ epsilon)) : ℚ) / (gapMat.length : ℚ)

/-- `ROVE::_epsilonOptimalProb` (ROVE.cpp:168-180) with its emptiness check. -/
def epsilonOptimalProb (gapMat : Mat) (epsilon : ℚ) : Except String (List ℚ) :=
  if gapMat.length = 0 ∨ numCols gapMat = 0 then
    .error "ROVE::_epsilonOptimalProb: gapMatrix cannot be empty"
  else
    .ok (epsilonOptimalProbFn gapMat epsilon)

end ROVE

/- ### Basic facts about row minima / maxima -/

theorem foldl_min_le_init (xs : List ℚ) (a : ℚ) : xs.foldl min a ≤ a := by
  induction xs generalizing a with
  | nil => simp
  | cons x xs ih =>
    simpa using le_trans (ih (min a x)) (min_le_left a x)

theorem foldl_min_le_mem (xs : List ℚ) (a : ℚ) (x : ℚ) (hx : x ∈ xs) :
    xs.foldl min a ≤ x := by
  induction xs generalizing a with
  | nil => simp at hx
  | cons y ys ih =>
    rcases List.mem_cons.mp hx with h | h
    · subst h
      exact le_trans (foldl_min_le_init ys (min a x)) (min_le_right a x)
    · exact ih (min a y) h

theorem rowMin_le_mem (r : List ℚ) (x : ℚ) (hx : x ∈ r) : rowMin r ≤ x := by
  cases r with
  | nil => simp at hx
  | cons y ys =>
    rcases List.mem_cons.mp hx with h | h
    · subst h; exact foldl_min_le_init ys x
    · exact foldl_min_le_mem ys y x h

theorem foldl_min_mem (xs : List ℚ) (a : ℚ) : xs.foldl min a = a ∨ xs.foldl min a ∈ xs := by
  induction xs generalizing a with
  | nil => simp
  | cons x xs ih =>
    rcases ih (min a x) with h | h
    · rcases min_cases a x with ⟨h', _⟩ | ⟨h', _⟩
      · left; rw [List.foldl_cons, h, h']
      · right; rw [List.foldl_cons, h, h']; exact List.mem_cons_self x xs
    · right; exact List.mem_cons_of_mem x h

theorem rowMin_mem (r : List ℚ) (hr : r ≠ []) : rowMin r ∈ r := by
  cases r with
  | nil => exact absurd rfl hr
  | cons x xs =>
    rcases foldl_min_mem xs x with h | h
    · simp [rowMin, h]
    · simp [rowMin, List.mem_cons_of_mem x h]

theorem le_foldl_max_init (xs : List ℚ) (a : ℚ) : a ≤ xs.foldl max a := by
  induction xs generalizing a with
  | nil => simp
  | cons x xs ih =>
    simpa using le_trans (le_max_left a x) (ih (max a x))

theorem mem_le_foldl_max (xs : List ℚ) (a : ℚ) (x : ℚ) (hx : x ∈ xs) :
    x ≤ xs.foldl max a := by
  induction xs generalizing a with
  | nil => simp at hx
  | cons y ys ih =>
    rcases List.mem_cons.mp hx with h | h
    · subst h
      exact le_trans (le_max_right a x) (le_foldl_max_init ys (max a x))
    · exact ih (max a y) h

theorem mem_le_rowMax (r : List ℚ) (x : ℚ) (hx : x ∈ r) : x ≤ rowMax r := by
  cases r with
  | nil => simp at hx
  | cons y ys =>
    rcases List.mem_cons.mp hx with h | h
    · subst h; exact le_foldl_max_init ys x
    · exact mem_le_foldl_max ys y x h

theorem foldl_max_mem (xs : List ℚ) (a : ℚ) : xs.foldl max a = a ∨ xs.foldl max a ∈ xs := by
  induction xs generalizing a with
  | nil => simp
  | cons x xs ih =>
    rcases ih (max a x) with h | h
    · rcases max_cases a x with ⟨h', _⟩ | ⟨h', _⟩
      · left; rw [List.foldl_cons, h, h']
      · right; rw [List.foldl_cons, h, h']; exact List.mem_cons_self x xs
    · right; exact List.mem_cons_of_mem x h

theorem rowMax_mem (r : List ℚ) (hr : r ≠ []) : rowMax r ∈ r := by
  cases r with
  | nil => exact absurd rfl hr
  | cons x xs =>
    rcases foldl_max_mem xs x with h | h
    · simp [rowMax, h]
    · simp [rowMax, List.mem_cons_of_mem x h]

/- ### C2: gap matrix non-negativity and row zeros -/

/-- C2 counterexample: the claim "in every row exactly one entry equals 0"
fails on the code.  On the evaluation matrix `[[1, 1]]` (two candidates tied
in the single subsample row), `ROVE::_gapMatrix` under the minimization
convention returns the row `[0, 0]`, which has two zero entries. -/
theorem rove_gapMatrix_exactly_one_zero_cex :
    ROVE.gapMatrix true [[(1:ℚ), 1]] = .ok [[0, 0]] ∧ ¬ ([(0:ℚ), 0].count 0 = 1) := by
  constructor
  · unfold ROVE.gapMatrix
    norm_num [numCols, ROVE.gapRow, rowMin]
  · decide

/-- C2 (amended): for every non-empty evaluation matrix whose rows are
non-empty, `ROVE::_gapMatrix` succeeds and the resulting matrix has all
entries `≥ 0` with, in every row, AT LEAST one entry (each row optimum)
equal to 0 — under both the minimization convention (`gap = value - rowMin`)
and the maximization convention (`gap = rowMax - value`).  (The original
"exactly one" fails when a row has tied optima.) -/
theorem rove_gapMatrix_nonneg_and_zero (isMin : Bool) (m : Mat)
    (hne : m ≠ []) (hrows : ∀ r ∈ m, r ≠ []) :
    ∃ g, ROVE.gapMatrix isMin m = .ok g ∧ g.length = m.length ∧
      ∀ row ∈ g, (∀ x ∈ row, 0 ≤ x) ∧ (0 ∈ row) := by
  have hlen : m.length ≠ 0 := by
    have := List.length_pos.mpr hne; omega
  have hhead : m.headD [] ∈ m := by
    cases m with
    | nil => exact absurd rfl hne
    | cons r t => exact List.mem_cons_self r t
  have hcols : numCols m ≠ 0 := by
    have h2 := List.length_pos.mpr (hrows _ hhead)
    simp only [numCols]; omega
  refine ⟨m.map (ROVE.gapRow isMin), ?_, by simp, ?_⟩
  · unfold ROVE.gapMatrix
    simp [hlen, hcols]
  · intro row hrow
    rcases List.mem_map.mp hrow with ⟨r, hr, rfl⟩
    have hrne : r ≠ [] := hrows r hr
    cases isMin with
    | true =>
      constructor
      · intro x hx
        rcases List.mem_map.mp (by simpa [ROVE.gapRow] using hx) with ⟨v, hv, rfl⟩
        have := rowMin_le_mem r v hv
        linarith
      · have hmem := rowMin_mem r hrne
        have : (0:ℚ) = rowMin r - rowMin r := by ring
        rw [this]
        simpa [ROVE.gapRow] using List.mem_map_of_mem (fun v => v - rowMin r) hmem
    | false =>
      constructor
      · intro x hx
        rcases List.mem_map.mp (by simpa [ROVE.gapRow] using hx) with ⟨v, hv, rfl⟩
        have := mem_le_rowMax r v hv
        linarith
      · have hmem := rowMax_mem r hrne
        have : (0:ℚ) = rowMax r - rowMax r := by ring
        rw [this]
        simpa [ROVE.gapRow] using List.mem_map_of_mem (fun v => rowMax r - v) hmem

/-- Witness for the amended C2 theorem at a concrete input. -/
theorem rove_gapMatrix_nonneg_and_zero_witness :
    ∃ g, ROVE.gapMatrix false [[(1:ℚ), 2], [(5:ℚ), 3]] = .ok g ∧
      g.length = [[(1:ℚ), 2], [(5:ℚ), 3]].length ∧
      ∀ row ∈ g, (∀ x ∈ row, 0 ≤ x) ∧ (0 ∈ row) :=
  rove_gapMatrix_nonneg_and_zero false [[(1:ℚ), 2], [(5:ℚ), 3]] (by decide) (by decide)

/- ### C5: epsilon-optimal probabilities and their monotonicity -/

/-- C5: `ROVE::_epsilonOptimalProb` returns, for each candidate column, the
fraction of rows whose gap entry is `≤ epsilon`, and for a fixed gap matrix
the per-candidate probability vector is monotone non-decreasing in
`epsilon` (componentwise). -/
theorem rove_epsilonOptimalProb_fraction_monotone (g : Mat) (epsilon epsilon' : ℚ)
    (hg : g ≠ []) (hc : 0 < numCols g) (hmono : epsilon ≤ epsilon') :
    ∃ v v', ROVE.epsilonOptimalProb g epsilon = .ok v ∧
      ROVE.epsilonOptimalProb g epsilon' = .ok v' ∧
      v.length = numCols g ∧
      (∀ j, j < numCols g →
        v.getD j 0 = ((g.filter fun r => decide (r.getD j 0 ≤ epsilon)).length : ℚ) /
          (g.length : ℚ)) ∧
      (∀ j, v.getD j 0 ≤ v'.getD j 0) := by
  have hlen : g.length ≠ 0 := by
    have := List.length_pos.mpr hg; omega
  have hcne : numCols g ≠ 0 := Nat.pos_iff_ne_zero.mp hc
  have hok : ∀ e, ROVE.epsilonOptimalProb g e = .ok (ROVE.epsilonOptimalProbFn g e) := by
    intro e; unfold ROVE.epsilonOptimalProb; simp [hlen, hcne]
  have hget : ∀ (e : ℚ) (j : ℕ), j < numCols g →
      (ROVE.epsilonOptimalProbFn g e).getD j 0 =
        ((g.countP fun r => decide (r.getD j 0 ≤ e)) : ℚ) / (g.length : ℚ) := by
    intro e j hj
    unfold ROVE.epsilonOptimalProbFn
    rw [List.getD_eq_getElem?_getD, List.getElem?_map, List.getElem?_range hj]
    simp
  have hlenfn : ∀ e : ℚ, (ROVE.epsilonOptimalProbFn g e).length = numCols g := by
    intro e; unfold ROVE.epsilonOptimalProbFn; simp
  refine ⟨_, _, hok epsilon, hok epsilon', hlenfn epsilon, ?_, ?_⟩
  · intro j hj
    rw [hget epsilon j hj, List.countP_eq_length_filter]
  · intro j
    by_cases hj : j < numCols g
    · rw [hget epsilon j hj, hget epsilon' j hj]
      have hcount : (g.countP fun r => decide (r.getD j 0 ≤ epsilon)) ≤
          (g.countP fun r => decide (r.getD j 0 ≤ epsilon')) := by
        apply List.countP_mono_left
        intro r _ h
        simpa using le_trans (by simpa using h) hmono
      have hq : ((g.countP fun r => decide (r.getD j 0 ≤ epsilon)) : ℚ) ≤
          ((g.countP fun r => decide (r.getD j 0 ≤ epsilon')) : ℚ) := by
        exact_mod_cast hcount
      have hpos : (0:ℚ) ≤ (g.length : ℚ) := by positivity
      gcongr
    · have h1 : (ROVE.epsilonOptimalProbFn g epsilon).getD j 0 = 0 := by
        apply List.getD_eq_default
        rw [hlenfn]; omega
      have h2 : (ROVE.epsilonOptimalProbFn g epsilon').getD j 0 = 0 := by
        apply List.getD_eq_default
        rw [hlenfn]; omega
      rw [h1, h2]

/-- Witness for the C5 theorem at a concrete input. -/
theorem rove_epsilonOptimalProb_fraction_monotone_witness :
    ∃ v v', ROVE.epsilonOptimalProb [[(0:ℚ), 2], [(1:ℚ), 0]] (1/2) = .ok v ∧
      ROVE.epsilonOptimalProb [[(0:ℚ), 2], [(1:ℚ), 0]] (3/2) = .ok v' ∧
      v.length = numCols [[(0:ℚ), 2], [(1:ℚ), 0]] ∧
      (∀ j, j < numCols [[(0:ℚ), 2], [(1:ℚ), 0]] →
        v.getD j 0 = ((([[(0:ℚ), 2], [(1:ℚ), 0]]).filter
            fun r => decide (r.getD j 0 ≤ 1/2)).length : ℚ) /
          (([[(0:ℚ), 2], [(1:ℚ), 0]] : Mat).length : ℚ)) ∧
      (∀ j, v.getD j 0 ≤ v'.getD j 0) :=
  rove_epsilonOptimalProb_fraction_monotone [[(0:ℚ), 2], [(1:ℚ), 0]] (1/2) (3/2)
    (by decide) (by decide) (by norm_num)

/- ### C4: epsilon calibration (`ROVE::_findEpsilon`) -/

namespace ROVE

/-- `probArray.maxCoeff()` over the epsilon-optimal probability vector. -/
def maxProb (g : Mat) (epsilon : ℚ) : ℚ := rowMax (epsilonOptimalProbFn g epsilon)

/-- An upper bound on the entries of a gap matrix (and on `0`): at any
epsilon at least this bound, every per-candidate probability is `1`.
Used only to prove termination of the exponential-doubling loop. -/
def matBound (g : Mat) : ℚ := max (rowMax (g.map rowMax)) 0

end ROVE

theorem matBound_entry_le (g : Mat) (r : List ℚ) (hr : r ∈ g) (j : ℕ) :
    r.getD j 0 ≤ ROVE.matBound g := by
  by_cases hj : j < r.length
  · have hmem : r.getD j 0 ∈ r := by
      rw [List.getD_eq_getElem?_getD, List.getElem?_eq_getElem hj]
      exact List.getElem_mem hj
    have h1 : r.getD j 0 ≤ rowMax r := mem_le_rowMax r _ hmem
    have h2 : rowMax r ≤ rowMax (g.map rowMax) :=
      mem_le_rowMax _ _ (List.mem_map_of_mem rowMax hr)
    exact le_trans (le_trans h1 h2) (le_max_left _ _)
  · have : r.getD j 0 = 0 := List.getD_eq_default _ _ (by omega)
    rw [this]
    exact le_max_right _ _

theorem probFn_all_one (g : Mat) (hg : g ≠ []) (epsilon : ℚ)
    (he : ROVE.matBound g ≤ epsilon) :
    ∀ x ∈ ROVE.epsilonOptimalProbFn g epsilon, x = 1 := by
  intro x hx
  rcases List.mem_map.mp hx with ⟨j, _, rfl⟩
  have hcount : (g.countP fun r => decide (r.getD j 0 ≤ epsilon)) = g.length := by
    rw [List.countP_eq_length]
    intro r hr
    simpa using le_trans (matBound_entry_le g r hr j) he
  have hlen : (g.length : ℚ) ≠ 0 := by
    have := List.length_pos.mpr hg
    exact_mod_cast Nat.pos_iff_ne_zero.mp this
  rw [hcount]
  field_simp

theorem probFn_le_one (g : Mat) (epsilon : ℚ) :
    ∀ x ∈ ROVE.epsilonOptimalProbFn g epsilon, x ≤ 1 := by
  intro x hx
  rcases List.mem_map.mp hx with ⟨j, _, rfl⟩
  rcases Nat.eq_zero_or_pos g.length with h | h
  · simp [h]
  · have hcount : (g.countP fun r => decide (r.getD j 0 ≤ epsilon)) ≤ g.length :=
      List.countP_le_length _
    rw [div_le_one (by exact_mod_cast h)]
    exact_mod_cast hcount

theorem probFn_length (g : Mat) (epsilon : ℚ) :
    (ROVE.epsilonOptimalProbFn g epsilon).length = numCols g := by
  unfold ROVE.epsilonOptimalProbFn
  simp

theorem probFn_ne_nil (g : Mat) (epsilon : ℚ) (hc : 0 < numCols g) :
    ROVE.epsilonOptimalProbFn g epsilon ≠ [] := by
  intro h
  have := probFn_length g epsilon
  rw [h] at this
  simp at this
  omega

theorem maxProb_le_one (g : Mat) (epsilon : ℚ) (hc : 0 < numCols g) :
    ROVE.maxProb g epsilon ≤ 1 := by
  have hmem := rowMax_mem _ (probFn_ne_nil g epsilon hc)
  exact probFn_le_one g epsilon _ hmem

theorem maxProb_one_of_bound (g : Mat) (hg : g ≠ []) (hc : 0 < numCols g)
    (epsilon : ℚ) (he : ROVE.matBound g ≤ epsilon) : ROVE.maxProb g epsilon = 1 := by
  have hmem := rowMax_mem _ (probFn_ne_nil g epsilon hc)
  exact probFn_all_one g hg epsilon he _ hmem

/-- Arithmetic helper for the bisection's termination: halving a quantity
that is strictly above `1` strictly decreases its ceiling. -/
theorem halve_ceil_lt (x : ℚ) (hx : 1 < x) : (⌈x / 2⌉).toNat < (⌈x⌉).toNat := by
  have h2 : (1:ℤ) < ⌈x⌉ := Int.lt_ceil.mpr (by exact_mod_cast hx)
  have hle : ⌈x / 2⌉ ≤ ⌈x⌉ - 1 := by
    rw [Int.ceil_le]
    have hx' : x ≤ (⌈x⌉ : ℚ) := Int.le_ceil x
    have : (⌈x⌉ : ℚ) / 2 ≤ (⌈x⌉ : ℚ) - 1 := by
      have : (2:ℚ) ≤ (⌈x⌉ : ℚ) := by exact_mod_cast h2
      linarith
    push_cast
    linarith
  omega

namespace ROVE

/-- The exponential-doubling loop of `ROVE::_findEpsilon` (ROVE.cpp:207-216):
starting from `left = 0`, `right = 1`, while the maximum epsilon-optimal
probability at `right` is below `autoEpsilonProb`, set `left = right` and
double `right`.  The proofs carried as arguments only serve termination. -/
def expandRight (g : Mat) (p : ℚ) (hg : g ≠ []) (hc : 0 < numCols g) (hp : p ≤ 1)
    (left right : ℚ) (hr : 1 ≤ right) : ℚ × ℚ :=
  if h : maxProb g right < p then
    expandRight g p hg hc hp right (2 * right) (by linarith)
  else (left, right)
termination_by (⌈matBound g - right⌉).toNat
decreasing_by
  have hless : right < matBound g := by
    by_contra hge
    push_neg at hge
    rw [maxProb_one_of_bound g hg hc right hge] at h
    linarith
  have h1 : matBound g - 2 * right ≤ (matBound g - right) - 1 := by linarith
  have h2 : ⌈matBound g - 2 * right⌉ ≤ ⌈(matBound g - right) - 1⌉ := Int.ceil_le_ceil h1
  rw [Int.ceil_sub_one] at h2
  have h3 : (1:ℤ) ≤ ⌈matBound g - right⌉ := Int.ceil_pos.mpr (by linarith)
  omega

/-- The binary-search loop of `ROVE::_findEpsilon` (ROVE.cpp:222-236):
while `max(right - left, (right - left)/(|left|/2 + |right|/2 + 1e-5))`
exceeds the tolerance `1e-3`, test the midpoint and move the bound whose
side the midpoint's probability falls on.  Returns the right bound. -/
def bisect (g : Mat) (p : ℚ) (left right : ℚ) : ℚ :=
  if h : (1:ℚ)/1000 <
      max (right - left) ((right - left) / (|left| / 2 + |right| / 2 + 1/100000)) then
    if p ≤ maxProb g ((left + right) / 2) then
      bisect g p left ((left + right) / 2)
    else
      bisect g p ((left + right) / 2) right
  else right
termination_by (⌈(right - left) * 100000000⌉).toNat
decreasing_by
  all_goals {
    have hd : (1:ℚ)/100000 ≤ |left| / 2 + |right| / 2 + 1/100000 := by
      have := abs_nonneg left
      have := abs_nonneg right
      linarith
    have hw : (1:ℚ)/100000000 < right - left := by
      rcases lt_max_iff.mp h with h1 | h1
      · linarith
      · have hd0 : (0:ℚ) < |left| / 2 + |right| / 2 + 1/100000 := by linarith
        have h2 := (lt_div_iff hd0).mp h1
        nlinarith
    have hx : (1:ℚ) < (right - left) * 100000000 := by linarith
    have hhalf : ((left + right) / 2 - left) * 100000000 = ((right - left) * 100000000) / 2 := by
      ring
    have hhalf2 : (right - (left + right) / 2) * 100000000 = ((right - left) * 100000000) / 2 := by
      ring
    first
      | (rw [hhalf]; exact halve_ceil_lt _ hx)
      | (rw [hhalf2]; exact halve_ceil_lt _ hx)
  }

/-- `ROVE::_findEpsilon` (ROVE.cpp:183-237): validates the matrix and the
target probability, returns `0` if the target is already met at
`epsilon = 0`, otherwise runs the exponential doubling followed by the
bisection and returns the right bound. -/
def findEpsilon (g : Mat) (p : ℚ) : Except String ℚ :=
  if hemp : g.length = 0 ∨ numCols g = 0 then
    .error "ROVE::_findEpsilon: gapMatrix cannot be empty"
  else if hp1 : 1 < p then
    .error "ROVE::_findEpsilon: autoEpsilonProb must be in [0, 1]"
  else if p ≤ maxProb g 0 then
    .ok 0
  else
    let lr := expandRight g p
      (by intro hnil; exact hemp (Or.inl (by simp [hnil])))
      (by
        rcases Nat.eq_zero_or_pos (numCols g) with h | h
        · exact absurd (Or.inr h) hemp
        · exact h)
      (le_of_not_lt hp1) 0 1 le_rfl
    .ok (bisect g p lr.1 lr.2)

end ROVE

theorem expandRight_invariant (g : Mat) (p : ℚ) (hg : g ≠ []) (hc : 0 < numCols g)
    (hp : p ≤ 1) (left right : ℚ) (hr : 1 ≤ right) (hl : ROVE.maxProb g left < p)
    (h0 : 0 ≤ left) (hlr : left < right) :
    ROVE.maxProb g (ROVE.expandRight g p hg hc hp left right hr).1 < p ∧
    p ≤ ROVE.maxProb g (ROVE.expandRight g p hg hc hp left right hr).2 ∧
    0 ≤ (ROVE.expandRight g p hg hc hp left right hr).1 ∧
    (ROVE.expandRight g p hg hc hp left right hr).1 <
      (ROVE.expandRight g p hg hc hp left right hr).2 := by
  induction left, right, hr using ROVE.expandRight.induct g p hg hc hp with
  | case1 left right hr h ih =>
    rw [ROVE.expandRight]
    simp only [h, dif_pos]
    exact ih h (by linarith) (by linarith)
  | case2 left right hr h =>
    rw [ROVE.expandRight]
    simp only [h, dif_neg]
    exact ⟨hl, by push_neg at h; exact h, h0, hlr⟩

theorem bisect_invariant (g : Mat) (p : ℚ) (left right : ℚ)
    (hl : ROVE.maxProb g left < p) (hr : p ≤ ROVE.maxProb g right)
    (h0 : 0 ≤ left) (hlr : left < right) :
    ∃ lf, 0 ≤ lf ∧ lf < ROVE.bisect g p left right ∧ ROVE.maxProb g lf < p ∧
      p ≤ ROVE.maxProb g (ROVE.bisect g p left right) ∧
      ROVE.bisect g p left right - lf ≤ 1/1000 := by
  induction left, right using ROVE.bisect.induct g p with
  | case1 left right h hmid ih =>
    rw [ROVE.bisect]
    simp only [dif_pos h, if_pos hmid]
    exact ih hl hmid h0 (by linarith)
  | case2 left right h hmid ih =>
    rw [ROVE.bisect]
    simp only [dif_pos h, if_neg hmid]
    push_neg at hmid
    exact ih hmid hr (by linarith) (by linarith)
  | case3 left right h =>
    rw [ROVE.bisect]
    simp only [dif_neg h]
    push_neg at h
    refine ⟨left, h0, hlr, hl, hr, ?_⟩
    exact le_trans (le_max_left _ _) h

/-- C4: for every non-empty gap matrix, `ROVE::_findEpsilon` throws
`InvalidArgument` whenever `targetProb > 1`; it returns exactly `0` when the
maximum per-candidate epsilon-optimal probability at `epsilon = 0` already
meets `targetProb`; otherwise it returns the right bound of a bisection
bracket `[l, r]` with `maxProb l < targetProb ≤ maxProb r` of width within
the tolerance `1e-3` (so `r` is within `1e-3` of the smallest epsilon
meeting the target). -/
theorem rove_findEpsilon_spec (g : Mat) (p : ℚ) (hg : g ≠ []) (hc : 0 < numCols g) :
    (1 < p →
      ROVE.findEpsilon g p = .error "ROVE::_findEpsilon: autoEpsilonProb must be in [0, 1]") ∧
    (p ≤ ROVE.maxProb g 0 → ROVE.findEpsilon g p = .ok 0) ∧
    (p ≤ 1 → ROVE.maxProb g 0 < p →
      ∃ r lf, ROVE.findEpsilon g p = .ok r ∧ 0 ≤ lf ∧ lf < r ∧
        ROVE.maxProb g lf < p ∧ p ≤ ROVE.maxProb g r ∧ r - lf ≤ 1/1000) := by
  have hlen : ¬(g.length = 0 ∨ numCols g = 0) := by
    rintro (h | h)
    · exact hg (List.length_eq_zero.mp h)
    · omega
  refine ⟨?_, ?_, ?_⟩
  · intro hp1
    unfold ROVE.findEpsilon
    rw [dif_neg hlen, dif_pos hp1]
  · intro hp0
    have hp1 : ¬(1 < p) := by
      have := maxProb_le_one g 0 hc
      push_neg
      linarith
    unfold ROVE.findEpsilon
    rw [dif_neg hlen, dif_neg hp1, if_pos hp0]
  · intro hp1 hp0
    have hp1' : ¬(1 < p) := by push_neg; exact hp1
    have hp0' : ¬(p ≤ ROVE.maxProb g 0) := by push_neg; exact hp0
    unfold ROVE.findEpsilon
    rw [dif_neg hlen, dif_neg hp1', if_neg hp0']
    have hexp := expandRight_invariant g p
      (by intro hnil; exact hlen (Or.inl (by simp [hnil])))
      (by
        rcases Nat.eq_zero_or_pos (numCols g) with h | h
        · exact absurd (Or.inr h) hlen
        · exact h)
      (le_of_not_lt hp1') 0 1 le_rfl hp0 le_rfl (by norm_num)
    obtain ⟨he1, he2, he3, he4⟩ := hexp
    obtain ⟨lf, hf0, hf1, hf2, hf3, hf4⟩ := bisect_invariant g p _ _ he1 he2 he3 he4
    exact ⟨_, lf, rfl, hf0, hf1, hf2, hf3, hf4⟩

/-- Witness for the C4 theorem at the concrete gap matrix
`[[0, 1], [1, 0]]` and target probability `3/4`. -/
theorem rove_findEpsilon_spec_witness :
    (1 < (3/4 : ℚ) →
      ROVE.findEpsilon [[(0:ℚ), 1], [(1:ℚ), 0]] (3/4) =
        .error "ROVE::_findEpsilon: autoEpsilonProb must be in [0, 1]") ∧
    ((3/4 : ℚ) ≤ ROVE.maxProb [[(0:ℚ), 1], [(1:ℚ), 0]] 0 →
      ROVE.findEpsilon [[(0:ℚ), 1], [(1:ℚ), 0]] (3/4) = .ok 0) ∧
    ((3/4 : ℚ) ≤ 1 → ROVE.maxProb [[(0:ℚ), 1], [(1:ℚ), 0]] 0 < 3/4 →
      ∃ r lf, ROVE.findEpsilon [[(0:ℚ), 1], [(1:ℚ), 0]] (3/4) = .ok r ∧
        0 ≤ lf ∧ lf < r ∧ ROVE.maxProb [[(0:ℚ), 1], [(1:ℚ), 0]] lf < 3/4 ∧
        (3/4 : ℚ) ≤ ROVE.maxProb [[(0:ℚ), 1], [(1:ℚ), 0]] r ∧ r - lf ≤ 1/1000) :=
  rove_findEpsilon_spec [[(0:ℚ), 1], [(1:ℚ), 0]] (3/4) (by decide) (by decide)

/- ### Static worker partitioning (`_launchLearningTasks`, `_getCachedEvaluation`) -/

/-- Chunk sizes of the static contiguous partition used by both parallel
drivers (_BaseVE.cpp:141-148, _CachedEvaluator.cpp:141-147): every worker
gets `total / W` tasks, and workers `i < total % W` get one extra. -/
def workerSizes (total W : ℕ) : List ℕ :=
  (List.range W).map fun i => total / W + if i < total % W then 1 else 0

/-- Split a list into consecutive chunks of the given sizes (the
`[startIndex, endIndex)` slices assigned to successive workers). -/
def splitChunks {α : Type} : List ℕ → List α → List (List α)
  | [], _ => []
  | s :: ss, l => l.take s :: splitChunks ss (l.drop s)

theorem sum_indicator_range (r W : ℕ) :
    ((List.range W).map fun i => if i < r then (1:ℕ) else 0).sum = min r W := by
  induction W with
  | zero => simp
  | succ W ih =>
    rw [List.range_succ, List.map_append, List.sum_append]
    simp only [List.map_cons, List.map_nil, List.sum_cons, List.sum_nil, ih]
    split_ifs <;> omega

theorem sum_map_add_range (a : ℕ) (f : ℕ → ℕ) (W : ℕ) :
    ((List.range W).map fun i => a + f i).sum = W * a + ((List.range W).map f).sum := by
  induction W with
  | zero => simp
  | succ W ih =>
    rw [List.range_succ, List.map_append, List.sum_append, List.map_append, List.sum_append]
    simp only [List.map_cons, List.map_nil, List.sum_cons, List.sum_nil, ih]
    ring

theorem workerSizes_sum (total W : ℕ) (hW : 0 < W) : (workerSizes total W).sum = total := by
  unfold workerSizes
  rw [sum_map_add_range, sum_indicator_range]
  have hmod : total % W < W := Nat.mod_lt _ hW
  have hmin : min (total % W) W = total % W := by omega
  rw [hmin]
  have := Nat.div_add_mod total W
  omega

theorem splitChunks_join {α : Type} (sizes : List ℕ) (l : List α)
    (h : sizes.sum = l.length) : (splitChunks sizes l).flatten = l := by
  induction sizes generalizing l with
  | nil =>
    simp only [List.sum_nil] at h
    simp [splitChunks, (List.length_eq_zero.mp h.symm)]
  | cons s ss ih =>
    simp only [List.sum_cons] at h
    simp only [splitChunks, List.flatten_cons]
    rw [ih (l.drop s) (by rw [List.length_drop]; omega)]
    exact List.take_append_drop s l

/- ### The `std::set<int>` union accumulator of `_generateEvaluationSampleIndices` -/

/-- Ordered-unique insertion, modelling `std::set<int>::insert`. -/
def setInsert (x : ℕ) : List ℕ → List ℕ
  | [] => [x]
  | y :: ys => if x < y then x :: y :: ys else if x = y then y :: ys else y :: setInsert x ys

/-- The ascending unique list of all elements, modelling the `std::set`
accumulated over all drawn subsample indices (then converted to a vector). -/
def setOfList (l : List ℕ) : List ℕ := l.foldl (fun s x => setInsert x s) []

theorem mem_setInsert (a x : ℕ) (s : List ℕ) : a ∈ setInsert x s ↔ a = x ∨ a ∈ s := by
  induction s with
  | nil => simp [setInsert]
  | cons y ys ih =>
    unfold setInsert
    split_ifs with h1 h2
    · simp
    · subst h2; simp
    · simp only [List.mem_cons, ih]
      tauto

theorem setInsert_pairwise (x : ℕ) (s : List ℕ) (h : s.Pairwise (· < ·)) :
    (setInsert x s).Pairwise (· < ·) := by
  induction s with
  | nil => simp [setInsert]
  | cons y ys ih =>
    rw [List.pairwise_cons] at h
    obtain ⟨hy, hys⟩ := h
    unfold setInsert
    split_ifs with h1 h2
    · exact List.Pairwise.cons
        (by intro b hb; rcases List.mem_cons.mp hb with rfl | hb; exact h1; exact lt_trans h1 (hy b hb))
        (List.Pairwise.cons hy hys)
    · exact List.Pairwise.cons hy hys
    · have hyx : y < x := by omega
      refine List.Pairwise.cons ?_ (ih hys)
      intro b hb
      rcases (mem_setInsert b x ys).mp hb with rfl | hb
      · exact hyx
      · exact hy b hb

theorem setOfList_pairwise (l : List ℕ) : (setOfList l).Pairwise (· < ·) := by
  suffices h : ∀ s : List ℕ, s.Pairwise (· < ·) →
      (l.foldl (fun s x => setInsert x s) s).Pairwise (· < ·) by
    exact h [] (by simp)
  induction l with
  | nil => intro s hs; simpa using hs
  | cons x xs ih =>
    intro s hs
    exact ih _ (setInsert_pairwise x s hs)

theorem setOfList_nodup (l : List ℕ) : (setOfList l).Nodup :=
  (setOfList_pairwise l).imp ne_of_lt

theorem mem_setOfList (a : ℕ) (l : List ℕ) : a ∈ setOfList l ↔ a ∈ l := by
  suffices h : ∀ s : List ℕ, a ∈ l.foldl (fun s x => setInsert x s) s ↔ a ∈ s ∨ a ∈ l by
    simpa using h []
  induction l with
  | nil => intro s; simp
  | cons x xs ih =>
    intro s
    rw [List.foldl_cons, ih (setInsert x s), mem_setInsert]
    simp only [List.mem_cons]
    tauto

/- ### `_CachedEvaluator` (memoizing parallel evaluator) -/

namespace CachedEvaluator

/-- `_CachedEvaluator::_generateEvaluationSampleIndices`
(_CachedEvaluator.cpp:56-83).  The `std::sample` draws from
`sampleIndexList` are abstracted by `draw b` (the b-th drawn subsample
index set); the `std::set` union of all drawn rows is `setOfList`.
Throws when the union is empty. -/
def generateEvaluationSampleIndices (draw : ℕ → List ℕ) (B : ℕ) :
    Except String (List (List ℕ) × List ℕ) :=
  if setOfList ((List.range B).map draw).flatten = [] then
    .error "_CachedEvaluator::_generateEvaluationSampleIndices: No samples to evaluate on."
  else
    .ok ((List.range B).map draw, setOfList ((List.range B).map draw).flatten)

/-- The contiguous chunks of `sampleToEvaluate` assigned to the workers of
`_getCachedEvaluation` (_CachedEvaluator.cpp:116-160), with
`numWorkers = min(numParallelLearn, numSampleToEvaluate)`. -/
def evalChunks (P : ℕ) (sampleToEvaluate : List ℕ) : List (List ℕ) :=
  splitChunks (workerSizes sampleToEvaluate.length (min P sampleToEvaluate.length))
    sampleToEvaluate

/-- `_CachedEvaluator::_getCachedEvaluation` (_CachedEvaluator.cpp:116-188):
every worker evaluates all candidates on its chunk
(`_evaluateCandidatesOnSamples`, one `objective` row per chunk row, with
`score r` the per-candidate score vector of row `r`), and the chunk results
are merged into the cache keyed by row index. -/
def getCachedEvaluation (score : ℕ → List ℚ) (P : ℕ) (sampleToEvaluate : List ℕ) :
    List (ℕ × List ℚ) :=
  ((evalChunks P sampleToEvaluate).map fun chunk => chunk.map fun r => (r, score r)).flatten

theorem evalChunks_flatten (P : ℕ) (u : List ℕ) (hP : 1 ≤ P) :
    (evalChunks P u).flatten = u := by
  cases u with
  | nil => simp [evalChunks, workerSizes, splitChunks]
  | cons x xs =>
    apply splitChunks_join
    apply workerSizes_sum
    simp only [List.length_cons]
    omega

theorem lookup_scored (score : ℕ → List ℚ) (u : List ℕ) (r : ℕ) (hr : r ∈ u) :
    (u.map fun x => (x, score x)).lookup r = some (score r) := by
  induction u with
  | nil => simp at hr
  | cons y ys ih =>
    rcases List.mem_cons.mp hr with rfl | hr
    · simp [List.lookup]
    · by_cases hy : r = y
      · subst hy; simp [List.lookup]
      · simpa [List.lookup, beq_false_of_ne hy] using ih hr

/-- C6: within a single `evaluateSubsamples` call, the union of all rows
drawn by the B subsample index sets is partitioned disjointly across the
workers — every drawn row appears in exactly one worker chunk, so the
learner's `objective` is invoked on it exactly once regardless of how many
subsamples contain it — and the merged cache maps every drawn row index to
its per-candidate score vector. -/
theorem cachedEvaluator_memoization (score : ℕ → List ℚ) (draw : ℕ → List ℕ)
    (P B : ℕ) (hP : 1 ≤ P) (ss : List (List ℕ)) (u : List ℕ)
    (hgen : generateEvaluationSampleIndices draw B = .ok (ss, u)) :
    (evalChunks P u).flatten = u ∧
    u.Nodup ∧
    (∀ r : ℕ, ((evalChunks P u).flatten.count r) = if r ∈ ss.flatten then 1 else 0) ∧
    (∀ r ∈ ss.flatten, (getCachedEvaluation score P u).lookup r = some (score r)) := by
  unfold generateEvaluationSampleIndices at hgen
  split_ifs at hgen with hne
  simp only [Except.ok.injEq, Prod.mk.injEq] at hgen
  obtain ⟨rfl, rfl⟩ := hgen
  refine ⟨evalChunks_flatten P _ hP, setOfList_nodup _, ?_, ?_⟩
  · intro r
    rw [evalChunks_flatten P _ hP]
    by_cases hr : r ∈ ((List.range B).map draw).flatten
    · rw [if_pos hr]
      have hru : r ∈ setOfList ((List.range B).map draw).flatten :=
        (mem_setOfList r _).mpr hr
      have hle := List.nodup_iff_count_le_one.mp
        (setOfList_nodup ((List.range B).map draw).flatten) r
      have hpos : 0 < (setOfList ((List.range B).map draw).flatten).count r :=
        List.count_pos_iff.mpr hru
      omega
    · rw [if_neg hr]
      apply List.count_eq_zero.mpr
      intro hru
      exact hr ((mem_setOfList r _).mp hru)
  · intro r hr
    unfold getCachedEvaluation
    rw [← List.map_flatten, evalChunks_flatten P _ hP]
    exact lookup_scored score _ r ((mem_setOfList r _).mpr hr)

/-- One row of `_CachedEvaluator::_getFinalEvaluationResults`
(_CachedEvaluator.cpp:196-216): sum the cached per-row score vectors of the
subsample's rows, erroring on a cache miss, and count the rows found.
`C` is the number of candidates (`_subsampleResultList.size()`). -/
def rowAccum (cache : List (ℕ × List ℚ)) (C : ℕ) (idxs : List ℕ) :
    Except String (List ℚ × ℕ) :=
  idxs.foldlM
    (fun acc i =>
      match cache.lookup i with
      | some v => .ok (List.zipWith (· + ·) acc.1 v, acc.2 + 1)
      | none =>
        .error "_CachedEvaluator::_getFinalEvaluationResults: Sample index not found in cache.")
    (List.replicate C 0, 0)

/-- One output row of `_getFinalEvaluationResults`
(_CachedEvaluator.cpp:218-227): the average when the subsample found rows,
an error when it was non-empty yet found none, and the zero row (from
`setZero`) when the subsample was empty. -/
def finalRow (cache : List (ℕ × List ℚ)) (C : ℕ) (idxs : List ℕ) :
    Except String (List ℚ) := do
  let sc ← rowAccum cache C idxs
  if 0 < sc.2 then
    .ok (sc.1.map fun x => x / (sc.2 : ℚ))
  else if idxs ≠ [] then
    .error "_CachedEvaluator::_getFinalEvaluationResults: Logic error: subsample has no valid samples in the cache."
  else
    .ok (List.replicate C 0)

/-- `_CachedEvaluator::_getFinalEvaluationResults` (_CachedEvaluator.cpp:191-231):
one averaged row per subsample index set, in subsample order. -/
def getFinalEvaluationResults (cache : List (ℕ × List ℚ)) (C : ℕ)
    (subsampleIndices : List (List ℕ)) : Except String Mat :=
  subsampleIndices.mapM (finalRow cache C)

/-- `_CachedEvaluator::_evaluateSubsamples` (_CachedEvaluator.cpp:234-255).
The declared parameter order is `(sampleIndexList, k, B, rng)`; the
returned matrix has `B` rows (one per drawn subsample of size `k`). -/
def evaluateSubsamples (score : ℕ → List ℚ) (draw : ℕ → List ℕ) (P C : ℕ)
    (sampleIndexList : List ℕ) (k B : ℤ) : Except String Mat :=
  if B ≤ 0 then
    .error "_CachedEvaluator::_evaluateSubsamples: Number of subsamples B must be positive."
  else if (sampleIndexList.length : ℤ) < k ∨ k ≤ 0 then
    .error "_CachedEvaluator::_evaluateSubsamples: Sample size n must be greater than or equal to k and k must be positive."
  else do
    let gen ← generateEvaluationSampleIndices draw B.toNat
    getFinalEvaluationResults (getCachedEvaluation score P gen.2) C gen.1

end CachedEvaluator

/-- Witness for the C6 theorem at a concrete input (`P = 2` workers, `B = 3`
subsamples all drawing rows `[0, 1]`). -/
theorem cachedEvaluator_memoization_witness :
    (CachedEvaluator.evalChunks 2 [0, 1]).flatten = [0, 1] ∧
    ([0, 1] : List ℕ).Nodup ∧
    (∀ r : ℕ, ((CachedEvaluator.evalChunks 2 [0, 1]).flatten.count r) =
      if r ∈ ([[0, 1], [0, 1], [0, 1]] : List (List ℕ)).flatten then 1 else 0) ∧
    (∀ r ∈ ([[0, 1], [0, 1], [0, 1]] : List (List ℕ)).flatten,
      (CachedEvaluator.getCachedEvaluation (fun x => [(x : ℚ)]) 2 [0, 1]).lookup r =
        some [(r : ℚ)]) :=
  CachedEvaluator.cachedEvaluator_memoization (fun x => [(x : ℚ)]) (fun _ => [0, 1]) 2 3
    (by norm_num) [[0, 1], [0, 1], [0, 1]] [0, 1] rfl

/- ### ROVE parameter resolution and the Phase II evaluation calls -/

/-- `ROVE::ROVERunParameters` (ROVE.hpp:20-24). -/
structure ROVERunParameters where
  n1 : ℤ
  n2 : ℤ
  phaseTwoStart : ℤ
  B1 : ℤ
  k1 : ℤ
  B2 : ℤ
  k2 : ℤ
deriving Repr, DecidableEq

namespace ROVE

/-- `ROVE::_chooseParameters` (ROVE.cpp:36-97): data split, per-phase sample
sizes, explicit-`k` validation and clamping (`k > n` clamps to `n` and
forces that phase's `B` to 1), and the default `k` rules. -/
def chooseParameters (dataSplit dedup : Bool) (nTotal B1 B2 : ℤ)
    (k1 k2 : Option ℤ) : Except String ROVERunParameters :=
  let phaseOneEnd : ℤ := if dataSplit then nTotal / 2 else nTotal
  let phaseTwoStart : ℤ := if dataSplit then nTotal / 2 else 0
  if phaseOneEnd ≤ 0 ∨ phaseTwoStart ≥ nTotal then
    .error "ROVE::run: Insufficient sample size"
  else
    let n1 := phaseOneEnd
    let n2 := nTotal - phaseTwoStart
    match
      (match k1 with
       | some k =>
         if k ≤ 0 then .error "ROVE::run: Provided k1 must be positive."
         else if n1 < k then .ok (n1, (1:ℤ))
         else .ok (k, B1)
       | none =>
         let divisor : ℤ := if dedup then 200 else 2
         .ok (min (max 30 (n1 / divisor)) n1, B1) : Except String (ℤ × ℤ)) with
    | .error e => .error e
    | .ok (k1v, B1v) =>
      match
        (match k2 with
         | some k =>
           if k ≤ 0 then .error "ROVE::run: Provided k2 must be positive."
           else if n2 < k then .ok (n2, (1:ℤ))
           else .ok (k, B2)
         | none => .ok (min (max 30 (n2 / 200)) n2, B2) : Except String (ℤ × ℤ)) with
      | .error e => .error e
      | .ok (k2v, B2v) =>
        .ok ⟨n1, n2, phaseTwoStart, B1v, k1v, B2v, k2v⟩

/-- The Phase II row pool (ROVE.cpp:246-248):
`iota(phaseTwoStart, ..., nTotal - 1)`, `n2` rows. -/
def phaseTwoIndices (params : ROVERunParameters) : List ℕ :=
  (List.range params.n2.toNat).map fun i => i + params.phaseTwoStart.toNat

/-- The Phase II evaluation call of `ROVE::_runPhaseTwoEvaluation`
(ROVE.cpp:250), with the arguments exactly as the source passes them:
`_evaluateSubsamples(phaseTwoIndices, params.B2, params.k2, _rng)` — so
`params.B2` lands in the `k` parameter and `params.k2` in the `B`
parameter of `_evaluateSubsamples(sampleIndexList, k, B, rng)`. -/
def runPhaseTwoEvalMatrix (score : ℕ → List ℚ) (draw : ℕ → List ℕ) (P C : ℕ)
    (params : ROVERunParameters) : Except String Mat :=
  CachedEvaluator.evaluateSubsamples score draw P C (phaseTwoIndices params)
    params.B2 params.k2

/-- The dataSplit calibration call of `ROVE::_runPhaseTwoEvaluation`
(ROVE.cpp:260-262) over the Phase I rows `iota(0, ..., n1 - 1)`, again as
the source passes them: `_evaluateSubsamples(phaseOneIndices, params.B2,
params.k2, _rng)`. -/
def calibrationEvalMatrix (score : ℕ → List ℚ) (draw : ℕ → List ℕ) (P C : ℕ)
    (params : ROVERunParameters) : Except String Mat :=
  CachedEvaluator.evaluateSubsamples score draw P C (List.range params.n1.toNat)
    params.B2 params.k2

end ROVE

/-- C1 (code bug): evaluated at the concrete parameters
`n1 = n2 = 5`, `B2 = 3`, `k2 = 2` (no data split, one candidate, draws of
size 3 as `std::sample` produces for the passed first argument `B2 = 3`),
the Phase II evaluation matrix has `k2 = 2` rows — NOT `B2 = 3` rows as the
claim (and `_evaluateSubsamples`'s documented `(B × numCandidates)`
contract) requires — because ROVE.cpp:250 and ROVE.cpp:262 pass
`(pool, B2, k2, rng)` into the parameter list `(pool, k, B, rng)`.
The same holds for the dataSplit calibration evaluation. -/
theorem rove_phaseTwo_swapped_args_bug :
    ((ROVE.runPhaseTwoEvalMatrix (fun _ => [(1:ℚ)]) (fun b => [b, b + 1, b + 2]) 1 1
        ⟨5, 5, 0, 1, 1, 3, 2⟩).map List.length = .ok 2 ∧
      ¬ (ROVE.runPhaseTwoEvalMatrix (fun _ => [(1:ℚ)]) (fun b => [b, b + 1, b + 2]) 1 1
        ⟨5, 5, 0, 1, 1, 3, 2⟩).map List.length = .ok 3) ∧
    ((ROVE.calibrationEvalMatrix (fun _ => [(1:ℚ)]) (fun b => [b, b + 1, b + 2]) 1 1
        ⟨5, 5, 0, 1, 1, 3, 2⟩).map List.length = .ok 2 ∧
      ¬ (ROVE.calibrationEvalMatrix (fun _ => [(1:ℚ)]) (fun b => [b, b + 1, b + 2]) 1 1
        ⟨5, 5, 0, 1, 1, 3, 2⟩).map List.length = .ok 3) := by
  have h1 : (ROVE.runPhaseTwoEvalMatrix (fun _ => [(1:ℚ)]) (fun b => [b, b + 1, b + 2]) 1 1
      ⟨5, 5, 0, 1, 1, 3, 2⟩).map List.length = .ok 2 := rfl
  have h2 : (ROVE.calibrationEvalMatrix (fun _ => [(1:ℚ)]) (fun b => [b, b + 1, b + 2]) 1 1
      ⟨5, 5, 0, 1, 1, 3, 2⟩).map List.length = .ok 2 := rfl
  refine ⟨⟨h1, ?_⟩, h2, ?_⟩
  · intro h
    rw [h1] at h
    simp only [Except.ok.injEq] at h
    omega
  · intro h
    rw [h2] at h
    simp only [Except.ok.injEq] at h
    omega

/- ### MoVE parameter resolution and C8 (clamping) -/

namespace MoVE

/-- `MoVE::_chooseParameters` (MoVE.cpp:30-54): explicit `k` must be
positive; `k > n` clamps to `n` and forces `B = 1` (warning only);
default `k = min(max(30, n / 200), n)`.  Returns `(BVal, kVal)`. -/
def chooseParameters (n B_in : ℤ) (k_in : Option ℤ) : Except String (ℤ × ℤ) :=
  match k_in with
  | some k =>
    if k ≤ 0 then .error "MoVE::_chooseParameters: Provided k must be positive."
    else if n < k then .ok (1, n)
    else .ok (B_in, k)
  | none => .ok (B_in, min (max 30 (n / 200)) n)

end MoVE

/-- C8 counterexample: the claim promises no error for every sample with
`n > 0` rows, but `ROVE::_chooseParameters` with `dataSplit` enabled and
`n = 1` throws `InvalidArgument` ("Insufficient sample size", since the
Phase I half `[0, n/2)` is empty) even though an explicit `k1 = 5` exceeds
the available row count. -/
theorem rove_clamp_cex :
    ROVE.chooseParameters true false 1 50 200 (some 5) (some 5) =
      .error "ROVE::run: Insufficient sample size" := rfl

/-- C8 (amended): for every sample with `n > 0` rows whose per-phase row
counts are positive (for ROVE with dataSplit this needs `n ≥ 2`; without
dataSplit and for MoVE, `n ≥ 1` suffices), an explicit subsample size
larger than the phase's available row count raises no error: `k` is
clamped to the available count and that phase's `B` is forced to `1`
(with only a warning printed). -/
theorem clamp_forces_single_subsample (n B k : ℤ) (hn : 0 < n) (hk : n < k)
    (dataSplit dedup : Bool) (nTotal B1 B2 k1 k2 : ℤ)
    (h1 : 0 < (if dataSplit then nTotal / 2 else nTotal))
    (h2 : (if dataSplit then nTotal / 2 else 0) < nTotal)
    (hk1 : (if dataSplit then nTotal / 2 else nTotal) < k1) (hk1p : 0 < k1)
    (hk2 : nTotal - (if dataSplit then nTotal / 2 else 0) < k2) (hk2p : 0 < k2) :
    MoVE.chooseParameters n B (some k) = .ok (1, n) ∧
    ROVE.chooseParameters dataSplit dedup nTotal B1 B2 (some k1) (some k2) =
      .ok ⟨if dataSplit then nTotal / 2 else nTotal,
           nTotal - (if dataSplit then nTotal / 2 else 0),
           if dataSplit then nTotal / 2 else 0,
           1, if dataSplit then nTotal / 2 else nTotal,
           1, nTotal - (if dataSplit then nTotal / 2 else 0)⟩ := by
  constructor
  · have h3 : ¬ k ≤ 0 := by omega
    simp [MoVE.chooseParameters, h3, hk]
  · have hg : ¬((if dataSplit then nTotal / 2 else nTotal) ≤ 0 ∨
        (if dataSplit then nTotal / 2 else 0) ≥ nTotal) := by
      push_neg
      exact ⟨h1, h2⟩
    have hk1' : ¬ k1 ≤ 0 := by omega
    have hk2' : ¬ k2 ≤ 0 := by omega
    simp [ROVE.chooseParameters, hg, hk1', hk1, hk2', hk2]

/-- Witness for the amended C8 theorem: `n = 2`, explicit `k = 5` for MoVE;
`nTotal = 4` with dataSplit and explicit `k1 = k2 = 9` for ROVE. -/
theorem clamp_forces_single_subsample_witness :
    MoVE.chooseParameters 2 7 (some 5) = .ok (1, 2) ∧
    ROVE.chooseParameters true false 4 50 200 (some 9) (some 9) =
      .ok ⟨2, 2, 2, 1, 2, 1, 2⟩ :=
  clamp_forces_single_subsample 2 7 5 (by norm_num) (by norm_num) true false 4 50 200 9 9
    (by norm_num) (by norm_num) (by norm_num) (by norm_num) (by norm_num) (by norm_num)

/- ### `_BaseVE` subsample orchestrator (C7) -/

/-- A learning result reference: `std::variant<Result, int>` — an in-memory
candidate or an index into the external store.  The default-constructed
variant holds `Result{}`, the empty inline candidate. -/
inductive ResultRef where
  | inline (r : Res)
  | stored (i : ℤ)
deriving Repr, DecidableEq

namespace BaseVE

/-- `_BaseVE::_processSingleSubsample` (_BaseVE.cpp:84-108): learn on the
subsample's rows; if external storage is enabled, dump the candidate and
keep the subsample index, else keep the candidate inline. -/
def processSingleSubsample (learn : List ℕ → Res) (storageEnabled : Bool)
    (indices : List ℕ) (subsampleIndex : ℤ) : ResultRef :=
  if storageEnabled then .stored subsampleIndex else .inline (learn indices)

/-- The reassembly loop of `_BaseVE::_collectResultsFromWorkers`
(_BaseVE.cpp:186-199): place each collected `(index, result)` pair at its
original subsample index in a vector of `B` default slots, skipping (with
only a warning) any out-of-bounds index. -/
def placeByIndex (B : ℕ) (ps : List (ℤ × ResultRef)) (init : List ResultRef) :
    List ResultRef :=
  ps.foldl
    (fun acc p => if 0 ≤ p.1 ∧ p.1 < (B : ℤ) then acc.set p.1.toNat p.2 else acc) init

/-- `_BaseVE::_learnOnSubsamples` (_BaseVE.cpp:234-253): validation, the
B drawn subsample index sets (`draw`), the static contiguous partition of
the B tasks over `min(numParallelLearn, B)` workers
(`_launchLearningTasks`), per-task learning, and index-ordered reassembly
(`_collectResultsFromWorkers`). -/
def learnOnSubsamples (learn : List ℕ → Res) (storageEnabled : Bool)
    (draw : ℕ → List ℕ) (P : ℕ) (n k B : ℤ) : Except String (List ResultRef) :=
  if B ≤ 0 then
    .error "_BaseVE::_learnOnSubsamples: Number of subsamples B must be positive."
  else if n < k then
    .error "_BaseVE::_learnOnSubsamples: Sample size n must be greater than or equal to k."
  else if k ≤ 0 then
    .error "_BaseVE::_learnOnSubsamples: Subsample size k must be positive."
  else
    .ok (placeByIndex B.toNat
      (((splitChunks (workerSizes B.toNat (min P B.toNat)) (List.range B.toNat)).map
        fun batch => batch.map fun (b : ℕ) =>
          ((b : ℤ), processSingleSubsample learn storageEnabled
            (((List.range B.toNat).map draw).getD b []) (b : ℤ))).flatten)
      (List.replicate B.toNat (ResultRef.inline [])))

theorem set_append_left_length {α : Type} (l1 l2 : List α) (v : α) :
    (l1 ++ l2).set l1.length v = l1 ++ l2.set 0 v := by
  induction l1 with
  | nil => simp
  | cons x xs ih => simpa using ih

theorem placeByIndex_range (f : ℕ → ResultRef) (B : ℕ) :
    ∀ (m : ℕ) (init : List ResultRef), m ≤ B → init.length = B →
      placeByIndex B ((List.range m).map fun (b : ℕ) => ((b : ℤ), f b)) init
        = (List.range m).map f ++ init.drop m := by
  intro m
  induction m with
  | zero => intro init _ _; simp [placeByIndex]
  | succ m ih =>
    intro init hm hlen
    rw [List.range_succ, List.map_append, List.map_append]
    unfold placeByIndex
    rw [List.foldl_append]
    have hplace := ih init (by omega) hlen
    unfold placeByIndex at hplace
    rw [hplace]
    simp only [List.map_cons, List.map_nil, List.foldl_cons, List.foldl_nil]
    rw [if_pos ⟨by omega, by exact_mod_cast hm⟩]
    have htn : ((m : ℤ)).toNat = m := Int.toNat_natCast m
    rw [htn]
    have hlen2 : ((List.range m).map f).length = m := by simp
    have hs := set_append_left_length ((List.range m).map f) (init.drop m) (f m)
    rw [hlen2] at hs
    rw [hs]
    have hdrop : init.drop m = init.getD m (ResultRef.inline []) :: init.drop (m + 1) := by
      rw [List.getD_eq_getElem?_getD, List.getElem?_eq_getElem (by omega)]
      exact List.drop_eq_getElem_cons (by omega)
    rw [hdrop]
    simp [List.append_assoc]

/-- C7: `_learnOnSubsamples(sample, k, B)` throws `InvalidArgument` exactly
when `B ≤ 0`, `k ≤ 0` or `k > n`; for every valid `(n, k, B)` it returns
exactly `B` result references, the `b`-th being the result of learning on
the `b`-th drawn subsample (order by original subsample index, independent
of the worker partition). -/
theorem learnOnSubsamples_spec (learn : List ℕ → Res) (storageEnabled : Bool)
    (draw : ℕ → List ℕ) (P : ℕ) (n k B : ℤ) (hP : 1 ≤ P) :
    ((∃ e, learnOnSubsamples learn storageEnabled draw P n k B = .error e) ↔
      (B ≤ 0 ∨ k ≤ 0 ∨ n < k)) ∧
    (0 < B → 0 < k → k ≤ n →
      ∃ l, learnOnSubsamples learn storageEnabled draw P n k B = .ok l ∧
        l.length = B.toNat ∧
        ∀ b, b < B.toNat → l.getD b (.inline []) =
          processSingleSubsample learn storageEnabled (draw b) (b : ℤ)) := by
  constructor
  · unfold learnOnSubsamples
    split_ifs with hB hnk hk
    · exact iff_of_true ⟨_, rfl⟩ (by omega)
    · exact iff_of_true ⟨_, rfl⟩ (by omega)
    · exact iff_of_true ⟨_, rfl⟩ (by omega)
    · constructor
      · rintro ⟨e, h⟩; cases h
      · intro h; omega
  · intro hB hk hkn
    unfold learnOnSubsamples
    rw [if_neg (by omega), if_neg (by omega), if_neg (by omega)]
    have hW : 0 < min P B.toNat := by omega
    have hflat : (splitChunks (workerSizes B.toNat (min P B.toNat))
        (List.range B.toNat)).flatten = List.range B.toNat :=
      splitChunks_join _ _ (by rw [workerSizes_sum _ _ hW, List.length_range])
    have hpairs : ((splitChunks (workerSizes B.toNat (min P B.toNat))
          (List.range B.toNat)).map
        fun batch => batch.map fun (b : ℕ) =>
          ((b : ℤ), processSingleSubsample learn storageEnabled
            (((List.range B.toNat).map draw).getD b []) (b : ℤ))).flatten
        = (List.range B.toNat).map fun (b : ℕ) =>
            ((b : ℤ), processSingleSubsample learn storageEnabled
              (((List.range B.toNat).map draw).getD b []) (b : ℤ)) := by
      rw [← List.map_flatten, hflat]
    rw [hpairs, placeByIndex_range _ B.toNat B.toNat
      (List.replicate B.toNat (ResultRef.inline [])) le_rfl (by simp)]
    refine ⟨_, rfl, ?_, ?_⟩
    · simp
    · intro b hb
      have hgd : ∀ (d : ResultRef),
          (((List.range B.toNat).map fun c =>
            processSingleSubsample learn storageEnabled
              (((List.range B.toNat).map draw).getD c []) (c : ℤ)) ++
            (List.replicate B.toNat (ResultRef.inline [])).drop B.toNat).getD b d
          = processSingleSubsample learn storageEnabled
              (((List.range B.toNat).map draw).getD b []) (b : ℤ) := by
        intro d
        rw [List.getD_eq_getElem?_getD, List.getElem?_append_left
          (by simp only [List.length_map, List.length_range]; omega)]
        rw [List.getElem?_map, List.getElem?_range hb]
        rfl
      rw [hgd]
      have : ((List.range B.toNat).map draw).getD b [] = draw b := by
        rw [List.getD_eq_getElem?_getD, List.getElem?_map, List.getElem?_range hb]
        rfl
      rw [this]

end BaseVE

/-- Witness for the C7 theorem at a concrete input (`n = 3`, `k = 1`,
`B = 2`, two workers, no external storage). -/
theorem learnOnSubsamples_spec_witness :
    ((∃ e, BaseVE.learnOnSubsamples (fun idxs => [(idxs.length : ℚ)]) false
        (fun b => [b]) 2 3 1 2 = .error e) ↔ ((2:ℤ) ≤ 0 ∨ (1:ℤ) ≤ 0 ∨ (3:ℤ) < 1)) ∧
    (0 < (2:ℤ) → 0 < (1:ℤ) → (1:ℤ) ≤ 3 →
      ∃ l, BaseVE.learnOnSubsamples (fun idxs => [(idxs.length : ℚ)]) false
          (fun b => [b]) 2 3 1 2 = .ok l ∧
        l.length = (2:ℤ).toNat ∧
        ∀ b, b < (2:ℤ).toNat → l.getD b (.inline []) =
          BaseVE.processSingleSubsample (fun idxs => [(idxs.length : ℚ)]) false [b] (b : ℤ)) :=
  BaseVE.learnOnSubsamples_spec (fun idxs => [(idxs.length : ℚ)]) false
    (fun b => [b]) 2 3 1 2 (by norm_num)

/- ### C10: constructor parallelism clamping -/

/-- The `_BaseVE` constructor (_BaseVE.cpp:19-38): the effective worker
pool size is `max(1, numParallelLearn)`; the only argument check is the
null learner. -/
def baseVE_init (learnerIsNull : Bool) (numParallelLearn : ℤ) : Except String ℤ :=
  if learnerIsNull then .error "_BaseVE constructor: baseLearner cannot be null"
  else .ok (max 1 numParallelLearn)

/-- The `_CachedEvaluator` constructor (_CachedEvaluator.cpp:17-36):
`_numParallelLearn = max(1, numParallelLearn)`; the checks concern the
learner, the result-IO pointer, the candidate list and the sample — never
the parallelism argument. -/
def cachedEvaluator_init (learnerIsNull ioIsNull : Bool) (numResults sampleRows : ℕ)
    (numParallelLearn : ℤ) : Except String ℤ :=
  if learnerIsNull then
    .error "_CachedEvaluator constructor: baseLearner cannot be null"
  else if ioIsNull then
    .error "_CachedEvaluator constructor: subsampleResultIO cannot be null"
  else if numResults = 0 then
    .error "_CachedEvaluator constructor: subsampleResultList cannot be empty"
  else if sampleRows = 0 then
    .error "_CachedEvaluator constructor: sample cannot be empty"
  else
    .ok (max 1 numParallelLearn)

/-- The `ROVE` constructor (ROVE.cpp:20-33): the `_BaseVE` base
construction plus `_numParallelEval = max(1, numParallelEval)`. -/
def rove_init (learnerIsNull : Bool) (numParallelEval numParallelLearn : ℤ) :
    Except String (ℤ × ℤ) :=
  match baseVE_init learnerIsNull numParallelLearn with
  | .error e => .error e
  | .ok p =>
    if learnerIsNull then .error "ROVE constructor: baseLearner cannot be null"
    else .ok (max 1 numParallelEval, p)

/-- C10: for every integer parallelism argument (zero and negatives
included) the selector and evaluator constructors never raise on that
argument — with the other arguments valid they succeed and the effective
pool size is `max(1, argument) ≥ 1` — and every parallel call's worker
count `min(pool, taskCount)` is at least one. -/
theorem parallelism_clamped (p q : ℤ) (numResults sampleRows : ℕ)
    (hres : 0 < numResults) (hrows : 0 < sampleRows) :
    baseVE_init false p = .ok (max 1 p) ∧
    cachedEvaluator_init false false numResults sampleRows p = .ok (max 1 p) ∧
    rove_init false q p = .ok (max 1 q, max 1 p) ∧
    1 ≤ max 1 p ∧
    (∀ B : ℕ, 1 ≤ B → 1 ≤ min (max 1 p).toNat B) := by
  refine ⟨rfl, ?_, rfl, le_max_left 1 p, ?_⟩
  · unfold cachedEvaluator_init
    rw [if_neg (by simp), if_neg (by simp), if_neg (by omega), if_neg (by omega)]
  · intro B hB
    have h1 : (1:ℤ) ≤ max 1 p := le_max_left 1 p
    omega

/-- Witness for the C10 theorem at `p = -3`, `q = 0`. -/
theorem parallelism_clamped_witness :
    baseVE_init false (-3) = .ok (max 1 (-3)) ∧
    cachedEvaluator_init false false 2 5 (-3) = .ok (max 1 (-3)) ∧
    rove_init false 0 (-3) = .ok (max 1 0, max 1 (-3)) ∧
    (1:ℤ) ≤ max 1 (-3) ∧
    (∀ B : ℕ, 1 ≤ B → 1 ≤ min (max 1 (-3:ℤ)).toNat B) :=
  parallelism_clamped (-3) 0 2 5 (by norm_num) (by norm_num)

/- ### C3: MoVE majority voting -/

namespace MoVE

/-- The loop state of `MoVE::_performMajorityVoting` (MoVE.cpp:57-108):
`uniqueResultIndexCounts` (clusters as pairs of representative index into
`learningResults` and count), the running `maxIndex` and `maxCount`. -/
structure VoteState where
  clusters : List (ℕ × ℕ)
  maxIndex : ℕ
  maxCount : ℕ
deriving Repr, DecidableEq

/-- The inner scan of MoVE.cpp:75-84: the index of the first cluster (in
creation order) whose representative candidate is a duplicate of `c`. -/
def findDupIndex (isDup : Res → Res → Bool) (results : List Res)
    (clusters : List (ℕ × ℕ)) (c : Res) : Option ℕ :=
  clusters.findIdx? fun p => isDup c (results.getD p.1 [])

/-- One iteration of the `MoVE::_performMajorityVoting` loop
(MoVE.cpp:67-105) on result index `i` with candidate `c`: throw on an
empty candidate, join the first duplicate cluster or append a new one of
count 1, and update `(maxIndex, maxCount)` only on a strict increase. -/
def voteStep (isDup : Res → Res → Bool) (results : List Res) (st : VoteState)
    (i : ℕ) (c : Res) : Except String VoteState :=
  if c.length = 0 then
    .error "MoVE::_performMajorityVoting: Empty candidate result"
  else
    match findDupIndex isDup results st.clusters c with
    | some j =>
      if st.maxCount < (st.clusters.getD j (0, 0)).2 + 1 then
        .ok ⟨st.clusters.set j
              ((st.clusters.getD j (0, 0)).1, (st.clusters.getD j (0, 0)).2 + 1),
            (st.clusters.getD j (0, 0)).1, (st.clusters.getD j (0, 0)).2 + 1⟩
      else
        .ok ⟨st.clusters.set j
              ((st.clusters.getD j (0, 0)).1, (st.clusters.getD j (0, 0)).2 + 1),
            st.maxIndex, st.maxCount⟩
    | none =>
      if st.maxCount < 1 then
        .ok ⟨st.clusters ++ [(i, 1)], i, 1⟩
      else
        .ok ⟨st.clusters ++ [(i, 1)], st.maxIndex, st.maxCount⟩

/-- The `for (size_t i = 0; ...)` loop of `MoVE::_performMajorityVoting`
run over the first `m` results. -/
def voteLoop (isDup : Res → Res → Bool) (results : List Res) : ℕ → Except String VoteState
  | 0 => .ok ⟨[], 0, 0⟩
  | m + 1 => do
    let st ← voteLoop isDup results m
    voteStep isDup results st m (results.getD m [])

/-- `MoVE::_performMajorityVoting` (MoVE.cpp:57-108): run the loop over all
results and return the winning cluster's representative index. -/
def performMajorityVoting (isDup : Res → Res → Bool) (results : List Res) :
    Except String ℕ :=
  (voteLoop isDup results results.length).map VoteState.maxIndex

/-- The specification's clustering, written from the spec's words: for each
result in original order, scan the existing clusters in creation order and
join the first one whose representative is a duplicate, incrementing its
count; otherwise start a new cluster of count 1.  `specClusters m` is the
cluster list after the first `m` results. -/
def specStep (isDup : Res → Res → Bool) (results : List Res)
    (clusters : List (ℕ × ℕ)) (i : ℕ) (c : Res) : List (ℕ × ℕ) :=
  match findDupIndex isDup results clusters c with
  | some j => clusters.set j ((clusters.getD j (0, 0)).1, (clusters.getD j (0, 0)).2 + 1)
  | none => clusters ++ [(i, 1)]

/-- Clusters after the first `m` results, per the spec's description. -/
def specClusters (isDup : Res → Res → Bool) (results : List Res) : ℕ → List (ℕ × ℕ)
  | 0 => []
  | m + 1 => specStep isDup results (specClusters isDup results m) m (results.getD m [])

/-- The count of the cluster whose representative is `rep` (0 when no such
cluster exists yet). -/
def countOfRep (clusters : List (ℕ × ℕ)) (rep : ℕ) : ℕ :=
  match clusters.find? (fun p => p.1 == rep) with
  | some p => p.2
  | none => 0

theorem findIdx?_go_lt {α : Type} (p : α → Bool) :
    ∀ (l : List α) (i j : ℕ), l.findIdx? p i = some j → j < i + l.length := by
  intro l
  induction l with
  | nil => intro i j h; simp at h
  | cons x xs ih =>
    intro i j h
    rw [List.findIdx?_cons] at h
    by_cases hx : p x
    · rw [if_pos hx] at h
      simp only [Option.some.injEq] at h
      simp
      omega
    · rw [if_neg hx] at h
      have := ih (i + 1) j h
      simp
      omega

theorem findIdx?_lt_length {α : Type} (p : α → Bool) (l : List α) (j : ℕ)
    (h : l.findIdx? p = some j) : j < l.length := by
  have := findIdx?_go_lt p l 0 j h
  omega

theorem reps_set_count (l : List (ℕ × ℕ)) (j : ℕ) (c : ℕ) (hj : j < l.length) :
    (l.set j ((l.getD j (0, 0)).1, c)).map Prod.fst = l.map Prod.fst := by
  induction l generalizing j with
  | nil => simp at hj
  | cons x xs ih =>
    cases j with
    | zero => simp [List.set, List.getD]
    | succ j =>
      simp only [List.set, List.map_cons, List.cons.injEq, true_and]
      have hj' : j < xs.length := by simpa using hj
      have := ih j hj'
      simpa [List.getD] using this

theorem countOfRep_mem (l : List (ℕ × ℕ)) (p : ℕ × ℕ)
    (hnd : (l.map Prod.fst).Nodup) (hp : p ∈ l) : countOfRep l p.1 = p.2 := by
  induction l with
  | nil => simp at hp
  | cons x xs ih =>
    rw [List.map_cons, List.nodup_cons] at hnd
    rcases List.mem_cons.mp hp with rfl | hp
    · simp [countOfRep, List.find?]
    · have hx : x.1 ≠ p.1 := by
        intro h
        exact hnd.1 (h ▸ List.mem_map_of_mem Prod.fst hp)
      unfold countOfRep
      rw [List.find?_cons_of_neg _ (by simpa using hx)]
      exact ih hnd.2 hp

theorem countOfRep_not_mem (l : List (ℕ × ℕ)) (rep : ℕ)
    (h : rep ∉ l.map Prod.fst) : countOfRep l rep = 0 := by
  induction l with
  | nil => simp [countOfRep, List.find?]
  | cons x xs ih =>
    simp only [List.map_cons, List.mem_cons] at h
    push_neg at h
    unfold countOfRep
    rw [List.find?_cons_of_neg _ (by simpa using Ne.symm h.1)]
    exact ih h.2

theorem getD_mem (l : List (ℕ × ℕ)) (j : ℕ) (hj : j < l.length) :
    l.getD j (0, 0) ∈ l := by
  rw [List.getD_eq_getElem?_getD, List.getElem?_eq_getElem hj]
  exact List.getElem_mem hj

theorem mem_set_of_ne (l : List (ℕ × ℕ)) (j : ℕ) (v q : ℕ × ℕ) (hq : q ∈ l)
    (hne : q ≠ l.getD j (0, 0)) : q ∈ l.set j v := by
  rcases List.mem_iff_getElem.mp hq with ⟨pos, hpos, rfl⟩
  by_cases hpj : pos = j
  · subst hpj
    have hval : l.getD pos (0, 0) = l[pos] := by
      rw [List.getD_eq_getElem?_getD, List.getElem?_eq_getElem hpos]
      rfl
    exact absurd hval.symm hne
  · apply List.mem_iff_getElem.mpr
    refine ⟨pos, by rw [List.length_set]; exact hpos, ?_⟩
    exact List.getElem_set_ne (fun h => hpj h.symm) _

theorem setval_mem (l : List (ℕ × ℕ)) (j : ℕ) (v : ℕ × ℕ) (hj : j < l.length) :
    v ∈ l.set j v := by
  apply List.mem_iff_getElem.mpr
  exact ⟨j, by rw [List.length_set]; exact hj, List.getElem_set_self _⟩

theorem specClusters_reps_lt (isDup : Res → Res → Bool) (results : List Res) :
    ∀ m, ∀ p ∈ specClusters isDup results m, p.1 < m := by
  intro m
  induction m with
  | zero => intro p hp; simp [specClusters] at hp
  | succ m ih =>
    intro p hp
    unfold specClusters specStep at hp
    cases hfd : findDupIndex isDup results (specClusters isDup results m)
        (results.getD m []) with
    | some j =>
      rw [hfd] at hp
      have hj := findIdx?_lt_length _ _ _ hfd
      rcases List.mem_or_eq_of_mem_set hp with hp' | rfl
      · exact lt_trans (ih p hp') (Nat.lt_succ_self m)
      · have hm := ih ((specClusters isDup results m).getD j (0, 0)) (getD_mem _ j hj)
        exact lt_trans hm (Nat.lt_succ_self m)
    | none =>
      rw [hfd] at hp
      rcases List.mem_append.mp hp with hp' | hp'
      · exact lt_trans (ih p hp') (Nat.lt_succ_self m)
      · simp only [List.mem_singleton] at hp'
        subst hp'
        exact Nat.lt_succ_self m

theorem specClusters_reps_nodup (isDup : Res → Res → Bool) (results : List Res) :
    ∀ m, ((specClusters isDup results m).map Prod.fst).Nodup := by
  intro m
  induction m with
  | zero => simp [specClusters]
  | succ m ih =>
    unfold specClusters specStep
    cases hfd : findDupIndex isDup results (specClusters isDup results m)
        (results.getD m []) with
    | some j =>
      have hj := findIdx?_lt_length _ _ _ hfd
      rw [reps_set_count _ j _ hj]
      exact ih
    | none =>
      rw [List.map_append]
      simp only [List.map_cons, List.map_nil]
      rw [List.nodup_append]
      refine ⟨ih, List.nodup_singleton m, ?_⟩
      intro a ha hb
      simp only [List.mem_singleton] at hb
      rcases List.mem_map.mp ha with ⟨p, hp, hfst⟩
      have hlt := specClusters_reps_lt isDup results m p hp
      omega

theorem specClusters_counts_pos (isDup : Res → Res → Bool) (results : List Res) :
    ∀ m, ∀ q ∈ specClusters isDup results m, 1 ≤ q.2 := by
  intro m
  induction m with
  | zero => intro q hq; simp [specClusters] at hq
  | succ m ih =>
    intro q hq
    unfold specClusters specStep at hq
    cases hfd : findDupIndex isDup results (specClusters isDup results m)
        (results.getD m []) with
    | some j =>
      rw [hfd] at hq
      rcases List.mem_or_eq_of_mem_set hq with hq' | rfl
      · exact ih q hq'
      · simp
    | none =>
      rw [hfd] at hq
      rcases List.mem_append.mp hq with hq' | hq'
      · exact ih q hq'
      · simp only [List.mem_singleton] at hq'
        subst hq'
        exact le_refl 1

theorem voteLoop_invariant (isDup : Res → Res → Bool) (results : List Res)
    (hall : ∀ c ∈ results, c ≠ []) :
    ∀ m, m ≤ results.length →
      ∃ st, voteLoop isDup results m = .ok st ∧
        st.clusters = specClusters isDup results m ∧
        (st.clusters = [] → st.maxIndex = 0 ∧ st.maxCount = 0) ∧
        (st.clusters ≠ [] →
          ∃ p ∈ st.clusters, p.1 = st.maxIndex ∧ p.2 = st.maxCount ∧
            (∀ q ∈ st.clusters, q.2 ≤ st.maxCount) ∧
            ∃ t, t ≤ m ∧
              countOfRep (specClusters isDup results t) st.maxIndex = st.maxCount ∧
              ∀ q ∈ st.clusters, q.1 ≠ st.maxIndex →
                countOfRep (specClusters isDup results t) q.1 < st.maxCount) := by
  intro m
  induction m with
  | zero =>
    intro _
    exact ⟨⟨[], 0, 0⟩, rfl, rfl, fun _ => ⟨rfl, rfl⟩, fun h => absurd rfl h⟩
  | succ m ih =>
    intro hm
    obtain ⟨st, hok, hcl, hemp, hne⟩ := ih (by omega)
    have hmlen : m < results.length := by omega
    have hcmem : results.getD m [] ∈ results := by
      rw [List.getD_eq_getElem?_getD, List.getElem?_eq_getElem hmlen]
      exact List.getElem_mem hmlen
    have hclen : ¬ (results.getD m []).length = 0 := by
      have := hall _ hcmem
      simpa [List.length_eq_zero] using this
    have hrun : voteLoop isDup results (m + 1)
        = voteStep isDup results st m (results.getD m []) := by
      show (voteLoop isDup results m >>=
          fun st => voteStep isDup results st m (results.getD m []))
        = voteStep isDup results st m (results.getD m [])
      rw [hok]
      rfl
    rw [hrun]
    unfold voteStep
    rw [if_neg hclen]
    cases hfd : findDupIndex isDup results st.clusters (results.getD m []) with
    | some j =>
      dsimp only
      have hj : j < st.clusters.length := findIdx?_lt_length _ _ _ hfd
      have hstne : st.clusters ≠ [] := by
        intro h
        rw [h] at hj
        simp at hj
      obtain ⟨p₀, hp₀mem, hp₀i, hp₀c, hbound, t, ht, hcount, hothers⟩ := hne hstne
      have hspec : specClusters isDup results (m + 1)
          = st.clusters.set j
              ((st.clusters.getD j (0, 0)).1, (st.clusters.getD j (0, 0)).2 + 1) := by
        show specStep isDup results (specClusters isDup results m) m (results.getD m []) = _
        rw [← hcl]
        unfold specStep
        rw [hfd]
      have hnodup : ((st.clusters.set j
          ((st.clusters.getD j (0, 0)).1, (st.clusters.getD j (0, 0)).2 + 1)).map
            Prod.fst).Nodup := by
        rw [← hspec]
        exact specClusters_reps_nodup isDup results (m + 1)
      have hnodup₀ : (st.clusters.map Prod.fst).Nodup := by
        rw [hcl]
        exact specClusters_reps_nodup isDup results m
      have hlennil : ¬ st.clusters.set j
          ((st.clusters.getD j (0, 0)).1, (st.clusters.getD j (0, 0)).2 + 1) = [] := by
        intro h
        have hlen0 := congrArg List.length h
        rw [List.length_set] at hlen0
        simp only [List.length_nil] at hlen0
        omega
      by_cases hlt : st.maxCount < (st.clusters.getD j (0, 0)).2 + 1
      · rw [if_pos hlt]
        refine ⟨_, rfl, hspec.symm, fun h => absurd h hlennil, fun _ => ?_⟩
        refine ⟨((st.clusters.getD j (0, 0)).1, (st.clusters.getD j (0, 0)).2 + 1),
          setval_mem _ j _ hj, rfl, rfl, ?_, m + 1, le_refl _, ?_, ?_⟩
        · intro q hq
          rcases List.mem_or_eq_of_mem_set hq with hq' | rfl
          · exact le_trans (hbound q hq') (le_of_lt hlt)
          · exact le_refl _
        · rw [hspec]
          exact countOfRep_mem _ _ hnodup (setval_mem _ j _ hj)
        · intro q hq hqne
          have hq' : q ∈ st.clusters := by
            rcases List.mem_or_eq_of_mem_set hq with h | rfl
            · exact h
            · exact absurd rfl hqne
          rw [hspec, countOfRep_mem _ q hnodup hq]
          exact lt_of_le_of_lt (hbound q hq') hlt
      · rw [if_neg hlt]
        have hp₀ne : p₀ ≠ st.clusters.getD j (0, 0) := by
          intro h
          have : p₀.2 = (st.clusters.getD j (0, 0)).2 := by rw [h]
          omega
        refine ⟨_, rfl, hspec.symm, fun h => absurd h hlennil, fun _ => ?_⟩
        refine ⟨p₀, mem_set_of_ne _ j _ p₀ hp₀mem hp₀ne, hp₀i, hp₀c, ?_, t,
          le_trans ht (Nat.le_succ m), hcount, ?_⟩
        · intro q hq
          rcases List.mem_or_eq_of_mem_set hq with hq' | rfl
          · exact hbound q hq'
          · simp only
            omega
        · intro q hq hqne
          rcases List.mem_or_eq_of_mem_set hq with hq' | rfl
          · exact hothers q hq' hqne
          · exact hothers (st.clusters.getD j (0, 0)) (getD_mem _ j hj) hqne
    | none =>
      dsimp only
      have hspec : specClusters isDup results (m + 1) = st.clusters ++ [(m, 1)] := by
        show specStep isDup results (specClusters isDup results m) m (results.getD m []) = _
        rw [← hcl]
        unfold specStep
        rw [hfd]
      by_cases hlt : st.maxCount < 1
      · rw [if_pos hlt]
        have hstnil : st.clusters = [] := by
          by_contra hne'
          obtain ⟨p₀, hp₀mem, _, hp₀c, _⟩ := hne hne'
          have hpos := specClusters_counts_pos isDup results m p₀ (hcl ▸ hp₀mem)
          omega
        refine ⟨_, rfl, hspec.symm, ?_, fun _ => ?_⟩
        · intro h
          rw [hstnil] at h
          simp at h
        · refine ⟨(m, 1), by simp, rfl, rfl, ?_, m + 1, le_refl _, ?_, ?_⟩
          · intro q hq
            rw [hstnil] at hq
            simp only [List.nil_append, List.mem_singleton] at hq
            subst hq
            exact le_refl _
          · rw [hspec, hstnil]
            simp [countOfRep, List.find?]
          · intro q hq hqne
            rw [hstnil] at hq
            simp only [List.nil_append, List.mem_singleton] at hq
            subst hq
            exact absurd rfl hqne
      · rw [if_neg hlt]
        have hstne : st.clusters ≠ [] := by
          intro h
          obtain ⟨_, hmc⟩ := hemp h
          omega
        obtain ⟨p₀, hp₀mem, hp₀i, hp₀c, hbound, t, ht, hcount, hothers⟩ := hne hstne
        refine ⟨_, rfl, hspec.symm, ?_, fun _ => ?_⟩
        · intro h
          have := congrArg List.length h
          simp at this
        · refine ⟨p₀, List.mem_append_left _ hp₀mem, hp₀i, hp₀c, ?_, t,
            le_trans ht (Nat.le_succ m), hcount, ?_⟩
          · intro q hq
            rcases List.mem_append.mp hq with hq' | hq'
            · exact hbound q hq'
            · simp only [List.mem_singleton] at hq'
              rw [hq']
              show 1 ≤ st.maxCount
              omega
          · intro q hq hqne
            rcases List.mem_append.mp hq with hq' | hq'
            · exact hothers q hq' hqne
            · simp only [List.mem_singleton] at hq'
              have hq1 : q.1 = m := by rw [hq']
              have hzero : countOfRep (specClusters isDup results t) q.1 = 0 := by
                apply countOfRep_not_mem
                intro hmem
                rcases List.mem_map.mp hmem with ⟨p, hp, hfst⟩
                have hplt := specClusters_reps_lt isDup results t p hp
                omega
              show countOfRep (specClusters isDup results t) q.1 < st.maxCount
              omega

theorem specClusters_ne_nil (isDup : Res → Res → Bool) (results : List Res) :
    ∀ m, 1 ≤ m → specClusters isDup results m ≠ [] := by
  intro m
  induction m with
  | zero => omega
  | succ m ih =>
    intro _
    unfold specClusters specStep
    cases hfd : findDupIndex isDup results (specClusters isDup results m)
        (results.getD m []) with
    | some j =>
      intro h
      have hj := findIdx?_lt_length _ _ _ hfd
      have := congrArg List.length h
      rw [List.length_set] at this
      simp only [List.length_nil] at this
      omega
    | none =>
      simp

end MoVE

/-- C3: in `MoVE::_performMajorityVoting` over nonempty results (all
candidates nonempty), each result joins the first existing cluster in
creation order whose representative is a duplicate or starts a new cluster
of count 1 (the code's cluster list equals the spec's first-match
clustering), and the returned index `w` is the representative of a cluster
whose count is maximal; moreover there is a prefix time `t` at which the
winning cluster already had its final count while every other cluster was
strictly below it — so a cluster that merely ties later never overtakes,
and the earliest cluster to attain the maximum count wins. -/
theorem move_majorityVoting_spec (isDup : Res → Res → Bool) (results : List Res)
    (hres : results ≠ []) (hall : ∀ c ∈ results, c ≠ []) :
    ∃ w, MoVE.performMajorityVoting isDup results = .ok w ∧
      (MoVE.voteLoop isDup results results.length).map MoVE.VoteState.clusters =
        .ok (MoVE.specClusters isDup results results.length) ∧
      ∃ p ∈ MoVE.specClusters isDup results results.length, p.1 = w ∧
        (∀ q ∈ MoVE.specClusters isDup results results.length, q.2 ≤ p.2) ∧
        ∃ t, t ≤ results.length ∧
          MoVE.countOfRep (MoVE.specClusters isDup results t) w = p.2 ∧
          ∀ q ∈ MoVE.specClusters isDup results results.length, q.1 ≠ w →
            MoVE.countOfRep (MoVE.specClusters isDup results t) q.1 < p.2 := by
  obtain ⟨st, hok, hcl, hemp, hne⟩ :=
    MoVE.voteLoop_invariant isDup results hall results.length le_rfl
  have hlen1 : 1 ≤ results.length := by
    have := List.length_pos.mpr hres
    omega
  have hstne : st.clusters ≠ [] := by
    rw [hcl]
    exact MoVE.specClusters_ne_nil isDup results results.length hlen1
  obtain ⟨p₀, hp₀mem, hp₀i, hp₀c, hbound, t, ht, hcount, hothers⟩ := hne hstne
  refine ⟨st.maxIndex, ?_, ?_, p₀, ?_, hp₀i, ?_, t, ht, ?_, ?_⟩
  · unfold MoVE.performMajorityVoting
    rw [hok]
    rfl
  · rw [hok, ← hcl]
    rfl
  · rw [← hcl]
    exact hp₀mem
  · rw [← hcl]
    intro q hq
    rw [hp₀c]
    exact hbound q hq
  · rw [hp₀c]
    exact hcount
  · rw [← hcl]
    intro q hq hqne
    rw [hp₀c]
    exact hothers q hq hqne

/-- Witness for the C3 theorem at the concrete results
`[[1], [2], [1]]` with equality as the duplicate predicate. -/
theorem move_majorityVoting_spec_witness :
    ∃ w, MoVE.performMajorityVoting (fun a b => decide (a = b)) [[(1:ℚ)], [2], [1]] = .ok w ∧
      (MoVE.voteLoop (fun a b => decide (a = b)) [[(1:ℚ)], [2], [1]]
          ([[(1:ℚ)], [2], [1]] : List Res).length).map MoVE.VoteState.clusters =
        .ok (MoVE.specClusters (fun a b => decide (a = b)) [[(1:ℚ)], [2], [1]]
          ([[(1:ℚ)], [2], [1]] : List Res).length) ∧
      ∃ p ∈ MoVE.specClusters (fun a b => decide (a = b)) [[(1:ℚ)], [2], [1]]
          ([[(1:ℚ)], [2], [1]] : List Res).length, p.1 = w ∧
        (∀ q ∈ MoVE.specClusters (fun a b => decide (a = b)) [[(1:ℚ)], [2], [1]]
            ([[(1:ℚ)], [2], [1]] : List Res).length, q.2 ≤ p.2) ∧
        ∃ t, t ≤ ([[(1:ℚ)], [2], [1]] : List Res).length ∧
          MoVE.countOfRep (MoVE.specClusters (fun a b => decide (a = b))
            [[(1:ℚ)], [2], [1]] t) w = p.2 ∧
          ∀ q ∈ MoVE.specClusters (fun a b => decide (a = b)) [[(1:ℚ)], [2], [1]]
              ([[(1:ℚ)], [2], [1]] : List Res).length, q.1 ≠ w →
            MoVE.countOfRep (MoVE.specClusters (fun a b => decide (a = b))
              [[(1:ℚ)], [2], [1]] t) q.1 < p.2 :=
  move_majorityVoting_spec (fun a b => decide (a = b)) [[(1:ℚ)], [2], [1]]
    (by decide) (by decide)

/- ### C9: cleanup of stored Phase I results in `MoVE::run` -/

namespace MoVE

/-- `_BaseVE::_loadResultIfNeeded` (_BaseVE.cpp:50-65): an inline reference
is returned as is; a stored index loads the dumped candidate back, which is
the value the learner produced for that subsample (dump/load round-trip). -/
def loadRef (learn : List ℕ → Res) (draw : ℕ → List ℕ) : ResultRef → Res
  | .inline r => r
  | .stored i => learn (draw i.toNat)

/-- The store indices dumped for a list of learning results: one entry per
`stored` reference (`_processSingleSubsample` dumps exactly these). -/
def dumpedIndices (refs : List ResultRef) : List ℤ :=
  refs.filterMap fun r => match r with | .stored i => some i | .inline _ => none

/-- `MoVE::run` (MoVE.cpp:111-139) with the external store's contents made
explicit: validation, Phase I learning (which dumps one store entry per
subsample when storage is enabled), majority voting, the empty-result
check, and — only after both succeed — `_cleanupSubsampleResults`
(_BaseVE.cpp:204-231), which deletes the stored indices when deletion is
requested.  Returns the outcome and the final store contents; on a thrown
error the store is returned as it stood when the exception propagated. -/
def runWithStore (learn : List ℕ → Res) (isDup : Res → Res → Bool)
    (draw : ℕ → List ℕ) (P : ℕ) (storageEnabled deleteSubsampleResults : Bool)
    (n B : ℤ) (k : Option ℤ) (store₀ : List ℤ) : (Except String Res) × List ℤ :=
  if n = 0 then
    (.error "MoVE::run: Sample size n must be greater than 0.", store₀)
  else if B ≤ 0 then
    (.error "MoVE::run: Number of subsamples B must be positive.", store₀)
  else
    match chooseParameters n B k with
    | .error e => (.error e, store₀)
    | .ok BkVal =>
      match BaseVE.learnOnSubsamples learn storageEnabled draw P n BkVal.2 BkVal.1 with
      | .error e => (.error e, store₀)
      | .ok learningResults =>
        let store₁ := store₀ ++ dumpedIndices learningResults
        if learningResults.isEmpty then
          (.error "MoVE::run: No learning results obtained.", store₁)
        else
          match performMajorityVoting isDup
              (learningResults.map (loadRef learn draw)) with
          | .error e => (.error e, store₁)
          | .ok maxIndex =>
            match (learningResults.map (loadRef learn draw)).getD maxIndex [] with
            | [] => (.error "MoVE::run: The result of majority voting is empty.", store₁)
            | finalResult =>
              if deleteSubsampleResults ∧ storageEnabled then
                (.ok finalResult,
                  store₁.filter fun i => decide (i ∉ dumpedIndices learningResults))
              else
                (.ok finalResult, store₁)

end MoVE

/-- C9 (code bug): with external storage and result deletion enabled, a
`MoVE::run` whose majority voting throws after Phase I stored its results
leaves the stored entries in place — the cleanup
(`_cleanupSubsampleResults`) is reached only on the success path of
MoVE.cpp:111-139 (there is no catch/finally), so the claim's "stored
entries are still deleted on selector-level failure" does not hold.
Concretely: a learner returning the empty candidate, `n = B = k = 1`;
Phase I dumps store entry 0, voting throws on the empty candidate, and the
run ends with the store still holding entry 0. -/
theorem move_run_cleanup_skipped_on_failure :
    MoVE.runWithStore (fun _ => []) (fun a b => decide (a = b)) (fun _ => [0]) 1
      true true 1 1 (some 1) [] =
      (.error "MoVE::_performMajorityVoting: Empty candidate result", [0]) ∧
    ([0] : List ℤ) ≠ [] := by
  constructor
  · rfl
  · decide

end VoteEnsemble
